import Mathlib

/-!
Verification of the System-V IPC subsystem of the rCore kernel
(`kernel/src/ipc/mod.rs` and `kernel/src/syscall/ipc.rs`).

The per-process tables `SemProc` and `ShmProc` store their mappings in
`BTreeMap`s.  A `BTreeMap` is embedded here as an association list whose
entries are kept in strictly increasing key order (the well-formedness
predicate `alSorted`); iteration over a `BTreeMap` visits entries in key
order, which for a sorted association list is simply left-to-right
traversal.  `Arc<SemArray>` and `Arc<spin::Mutex<SharedGuard<_>>>` handles
are embedded as natural numbers naming the underlying shared object: two
equal handles denote the same underlying kernel object.
-/

/-- Lookup in an association list: the first entry with the given key
(`BTreeMap::get`). -/
def alGet {β : Type} : List (Nat × β) → Nat → Option β
  | [], _ => none
  | e :: t, k => if e.1 = k then some e.2 else alGet t k

/-- Insertion into a sorted association list, replacing an existing entry
with the same key (`BTreeMap::insert`). -/
def alInsert {β : Type} : List (Nat × β) → Nat → β → List (Nat × β)
  | [], k, v => [(k, v)]
  | e :: t, k, v =>
    if k < e.1 then (k, v) :: e :: t
    else if k = e.1 then (k, v) :: t
    else e :: alInsert t k v

/-- Removal of the entry with the given key (`BTreeMap::remove`). -/
def alRemove {β : Type} : List (Nat × β) → Nat → List (Nat × β)
  | [], _ => []
  | e :: t, k => if e.1 = k then t else e :: alRemove t k

/-- Keys appear in strictly increasing order (the `BTreeMap` invariant). -/
def alSorted {β : Type} (m : List (Nat × β)) : Prop :=
  m.Pairwise (fun a b => a.1 < b.1)

/-- The keys of the association list are pairwise distinct. -/
def nodupKeys {β : Type} (m : List (Nat × β)) : Prop :=
  (m.map Prod.fst).Nodup

instance {β : Type} (m : List (Nat × β)) : Decidable (alSorted m) := by
  unfold alSorted; infer_instance

instance {β : Type} (m : List (Nat × β)) : Decidable (nodupKeys m) := by
  unfold nodupKeys; infer_instance

/-- A key larger than every key of the list is absent. -/
theorem alGet_eq_none_of_not_mem {β : Type} (m : List (Nat × β)) (k : Nat)
    (h : k ∉ m.map Prod.fst) : alGet m k = none := by
  induction m with
  | nil => rfl
  | cons e t ih =>
    simp only [List.map_cons, List.mem_cons] at h
    push_neg at h
    simp only [alGet]
    rw [if_neg (fun he => h.1 he.symm), ih h.2]

/-- Every member of a list of naturals is below the sum plus one. -/
theorem lt_sum_succ_of_mem (l : List Nat) (a : Nat) (h : a ∈ l) :
    a < l.sum + 1 := by
  induction l with
  | nil => cases h
  | cons b t ih =>
    rcases List.mem_cons.1 h with h | h
    · subst h; simp only [List.sum_cons]; omega
    · have := ih h; simp only [List.sum_cons]; omega

/-- Some key is always free: the free-id scan `(0..).find(...)` terminates. -/
theorem alFree_exists {β : Type} (m : List (Nat × β)) :
    ∃ i, alGet m i = none := by
  refine ⟨(m.map Prod.fst).sum + 1, alGet_eq_none_of_not_mem _ _ ?_⟩
  intro hmem
  exact absurd (lt_sum_succ_of_mem _ _ hmem) (by omega)

/-- The smallest key not bound in the list: the embedding of
`(0..).find(|i| table.get(i).is_none()).unwrap()`. -/
def alFreeId {β : Type} [DecidableEq β] (m : List (Nat × β)) : Nat :=
  Nat.find (alFree_exists m)

/-- A syscall error kind. -/
inductive SysError : Type
  | EINVAL
deriving DecidableEq

/-- Semaphore table in a process (`SemProc` in `ipc/mod.rs`).
`arrays` maps a `SemId` to the handle of a shared `SemArray`;
`undos` maps `(SemId, SemNum)` to the accumulated `SemOp` correction. -/
structure SemProc where
  arrays : List (Nat × Nat)
  undos : List ((Nat × Nat) × Int)
deriving DecidableEq

/-- The empty table a process starts with (`#[derive(Default)]`). -/
def SemProc.init : SemProc := ⟨[], []⟩

/-- `SemProc::get_free_id`. -/
def SemProc.get_free_id (p : SemProc) : Nat :=
  alFreeId p.arrays

/-- `SemProc::add`: insert the array handle and return its new id. -/
def SemProc.add (p : SemProc) (array : Nat) : Nat × SemProc :=
  let id := p.get_free_id
  (id, { p with arrays := alInsert p.arrays id array })

/-- `SemProc::get`: clone the shared handle stored under `id`. -/
def SemProc.get (p : SemProc) (id : Nat) : Option Nat :=
  alGet p.arrays id

/-- Lookup in the undo table (`BTreeMap<(SemId, SemNum), SemOp>::get`). -/
def uget : List ((Nat × Nat) × Int) → Nat × Nat → Option Int
  | [], _ => none
  | e :: t, k => if e.1 = k then some e.2 else uget t k

/-- Insertion into the undo table, replacing an entry with the same key. -/
def uinsert : List ((Nat × Nat) × Int) → Nat × Nat → Int → List ((Nat × Nat) × Int)
  | [], k, v => [(k, v)]
  | e :: t, k, v => if e.1 = k then (k, v) :: t else e :: uinsert t k v

/-- Two's-complement wrap of an integer into the `i16` range, the release-mode
semantics of `i16` subtraction in `add_undo`. -/
def wrap16 (x : Int) : Int := (x + 32768) % 65536 - 32768

/-- `SemProc::add_undo`: replace the recorded value (defaulting to `0`)
by that value minus `op`, in `i16` arithmetic. -/
def SemProc.add_undo (p : SemProc) (id : Nat) (num : Nat) (op : Int) : SemProc :=
  let old_val := (uget p.undos (id, num)).getD 0
  let new_val := wrap16 (old_val - op)
  { p with undos := uinsert p.undos (id, num) new_val }

/-- `impl Clone for SemProc`: fork the semaphore table, clearing undo info. -/
def SemProc.clone (p : SemProc) : SemProc :=
  { arrays := p.arrays, undos := [] }

/-- One pass of `impl Drop for SemProc` over the undo entries, given the
`arrays` mapping.  Returns the list of `release` calls actually performed,
as pairs (underlying array handle, semaphore index), together with a flag
recording whether the loop panicked (`unimplemented!` on an op other than
`0`/`1`, or the indexing `self.arrays[&id]` finding no entry). -/
def dropAux (arrays : List (Nat × Nat)) :
    List ((Nat × Nat) × Int) → List (Nat × Nat) × Bool
  | [] => ([], false)
  | ((id, num), op) :: rest =>
    match alGet arrays id with
    | none => ([], true)
    | some arr =>
      if op = 1 then
        let r := dropAux arrays rest
        ((arr, num) :: r.1, r.2)
      else if op = 0 then dropAux arrays rest
      else ([], true)

/-- `impl Drop for SemProc`: replay the undo table on process termination. -/
def SemProc.dropRun (p : SemProc) : List (Nat × Nat) × Bool :=
  dropAux p.arrays p.undos

/-- One shared-memory attachment record (`ShmIdentifier`): the attached
virtual address (`0` while unattached) and the shared guard handle. -/
structure ShmIdentifier where
  addr : Nat
  sharedGuard : Nat
deriving DecidableEq

/-- Shared-memory table in a process (`ShmProc`). -/
structure ShmProc where
  shmIdentifiers : List (Nat × ShmIdentifier)
deriving DecidableEq

/-- `ShmProc::get_free_id`. -/
def ShmProc.get_free_id (p : ShmProc) : Nat :=
  alFreeId p.shmIdentifiers

/-- `ShmProc::add`: insert a guard with address `0` and return the new id. -/
def ShmProc.add (p : ShmProc) (sharedGuard : Nat) : Nat × ShmProc :=
  let id := p.get_free_id
  let shmIdentifier : ShmIdentifier := { addr := 0, sharedGuard := sharedGuard }
  (id, { p with shmIdentifiers := alInsert p.shmIdentifiers id shmIdentifier })

/-- `ShmProc::get`. -/
def ShmProc.get (p : ShmProc) (id : Nat) : Option ShmIdentifier :=
  alGet p.shmIdentifiers id

/-- `ShmProc::set`: overwrite the entry under `id` (persist a resolved
virtual address). -/
def ShmProc.set (p : ShmProc) (id : Nat) (shmId : ShmIdentifier) : ShmProc :=
  { p with shmIdentifiers := alInsert p.shmIdentifiers id shmId }

/-- The `for` loop of `ShmProc::getId` over the entries in key order. -/
def getIdAux (addr : Nat) : List (Nat × ShmIdentifier) → Option Nat
  | [] => none
  | e :: t => if e.2.addr = addr then some e.1 else getIdAux addr t

/-- `ShmProc::getId`: the first (smallest) id whose entry records `addr`. -/
def ShmProc.getId (p : ShmProc) (addr : Nat) : Option Nat :=
  getIdAux addr p.shmIdentifiers

/-- `ShmProc::pop`: remove the entry for `id`. -/
def ShmProc.pop (p : ShmProc) (id : Nat) : ShmProc :=
  { p with shmIdentifiers := alRemove p.shmIdentifiers id }

/-- The maximum semaphores per semaphore set (`SEMMSL`). -/
def SEMMSL : Nat := 256

/-- `Syscall::sys_semget`.  `get_or_create` abstracts the external
collaborator `SemArray::get_or_create(key, nsems, flags)`, which returns a
shared array handle.  The result pairs the returned `SysResult` with the
(possibly updated) semaphore table of the calling process. -/
def sys_semget (get_or_create : Nat → Nat → Nat → Nat) (p : SemProc)
    (key : Nat) (nsems : Int) (flags : Nat) :
    Except SysError Nat × SemProc :=
  if nsems < 0 ∨ nsems.toNat > SEMMSL then (.error .EINVAL, p)
  else
    let sem_array := get_or_create key nsems.toNat flags
    let r := p.add sem_array
    (.ok r.1, r.2)

/-- `PAGE_SIZE` of `rcore_memory`. -/
def PAGE_SIZE : Nat := 4096

/-- `Syscall::sys_shmat`.  `find_free_area` abstracts the address-space
manager's `vm.find_free_area(addr, size)`; `guard_size` abstracts reading
`sharedGuard.lock().size`.  The subsequent `vm.push` call maps the region
into the address space, an effect outside the table and not modelled here.
The result pairs the returned `SysResult` with the updated table. -/
def sys_shmat (find_free_area : Nat → Nat → Nat) (guard_size : Nat → Nat)
    (p : ShmProc) (id : Nat) (addr : Nat) :
    Except SysError Nat × ShmProc :=
  match p.get id with
  | none => (.error .EINVAL, p)
  | some shmIdentifier =>
    let addr1 := if addr = 0 then PAGE_SIZE else addr
    let size := guard_size shmIdentifier.sharedGuard
    let addr2 := find_free_area addr1 size
    (.ok addr2, p.set id { shmIdentifier with addr := addr2 })

/-- `Syscall::sys_shmdt`: look up the id recorded at `addr`, pop it when
found, and return `0` either way. -/
def sys_shmdt (p : ShmProc) (addr : Nat) :
    Except SysError Nat × ShmProc :=
  match p.getId addr with
  | some id => (.ok 0, p.pop id)
  | none => (.ok 0, p)

/-- A sequence of `SEM_UNDO`-flagged operations on the same `(id, num)`:
each one reaches `add_undo` as in `sys_semop`
(`self.process().semaphores.add_undo(id, num, op)`). -/
def applyUndos (p : SemProc) (id num : Nat) (ops : List Int) : SemProc :=
  ops.foldl (fun q op => q.add_undo id num op) p

/-- The association list `[(n, h0), (n+1, h1), ...]`: the shape of a table
after consecutive insertions. -/
def numbered : Nat → List Nat → List (Nat × Nat)
  | _, [] => []
  | n, h :: t => (n, h) :: numbered (n + 1) t

/-- The ids `[s, s+1, ..., s+n-1]`. -/
def idsFrom : Nat → Nat → List Nat
  | _, 0 => []
  | s, n + 1 => s :: idsFrom (s + 1) n

/-- A sequence of `SemProc::add` calls, returning the final table and the
ids handed out, in order. -/
def SemProc.addAll (p : SemProc) (hs : List Nat) : SemProc × List Nat :=
  match hs with
  | [] => (p, [])
  | h :: t =>
    let r := p.add h
    let r2 := r.2.addAll t
    (r2.1, r.1 :: r2.2)

/-! ### Association-list lemmas -/

theorem alGet_insert_self {β : Type} (m : List (Nat × β)) (k : Nat) (v : β) :
    alGet (alInsert m k v) k = some v := by
  induction m with
  | nil => simp [alInsert, alGet]
  | cons e t ih =>
    simp only [alInsert]
    split_ifs with h1 h2
    · simp [alGet]
    · simp [alGet]
    · have hne : e.1 ≠ k := by omega
      simp only [alGet]
      rw [if_neg hne, ih]

theorem alGet_insert_ne {β : Type} (m : List (Nat × β)) (k j : Nat) (v : β)
    (hj : j ≠ k) : alGet (alInsert m k v) j = alGet m j := by
  induction m with
  | nil =>
    simp only [alInsert, alGet]
    rw [if_neg (fun h => hj h.symm)]
  | cons e t ih =>
    simp only [alInsert]
    split_ifs with h1 h2
    · simp only [alGet]
      rw [if_neg (fun h => hj h.symm)]
    · subst h2
      simp only [alGet]
      rw [if_neg (fun h => hj h.symm), if_neg (fun h => hj h.symm)]
    · simp only [alGet, ih]

theorem alGet_remove_ne {β : Type} (m : List (Nat × β)) (k j : Nat)
    (hj : j ≠ k) : alGet (alRemove m k) j = alGet m j := by
  induction m with
  | nil => rfl
  | cons e t ih =>
    simp only [alRemove]
    by_cases h : e.1 = k
    · rw [if_pos h]
      simp only [alGet]
      rw [if_neg (fun he => hj (he.symm.trans h))]
    · rw [if_neg h]
      simp only [alGet, ih]

theorem alGet_remove_self {β : Type} (m : List (Nat × β)) (k : Nat)
    (h : nodupKeys m) : alGet (alRemove m k) k = none := by
  induction m with
  | nil => rfl
  | cons e t ih =>
    simp only [nodupKeys, List.map_cons, List.nodup_cons] at h
    simp only [alRemove]
    by_cases he : e.1 = k
    · rw [if_pos he]
      exact alGet_eq_none_of_not_mem t k (he ▸ h.1)
    · rw [if_neg he]
      simp only [alGet]
      rw [if_neg he, ih h.2]

theorem mem_keys_of_alGet {β : Type} (m : List (Nat × β)) (k : Nat)
    (h : alGet m k ≠ none) : k ∈ m.map Prod.fst := by
  induction m with
  | nil => exact absurd rfl h
  | cons e t ih =>
    simp only [alGet] at h
    by_cases he : e.1 = k
    · exact List.mem_cons.2 (Or.inl he.symm)
    · rw [if_neg he] at h
      exact List.mem_cons.2 (Or.inr (ih h))

theorem alGet_of_mem {β : Type} (m : List (Nat × β)) (k : Nat) (v : β)
    (hnd : nodupKeys m) (h : (k, v) ∈ m) : alGet m k = some v := by
  induction m with
  | nil => cases h
  | cons e t ih =>
    simp only [nodupKeys, List.map_cons, List.nodup_cons] at hnd
    rcases List.mem_cons.1 h with h | h
    · rw [← h]
      simp [alGet]
    · have hk : k ∈ t.map Prod.fst := by
        have := List.mem_map_of_mem Prod.fst h
        exact this
      have hne : e.1 ≠ k := fun he => hnd.1 (he ▸ hk)
      simp only [alGet]
      rw [if_neg hne]
      exact ih hnd.2 h

theorem mem_of_alGet_some {β : Type} (m : List (Nat × β)) (k : Nat) (v : β)
    (h : alGet m k = some v) : (k, v) ∈ m := by
  induction m with
  | nil => cases h
  | cons e t ih =>
    obtain ⟨e1, e2⟩ := e
    simp only [alGet] at h
    split_ifs at h with he
    · injection h with h
      subst he
      subst h
      exact List.mem_cons_self _ _
    · exact List.mem_cons_of_mem _ (ih h)

theorem alFreeId_spec {β : Type} [DecidableEq β] (m : List (Nat × β)) :
    alGet m (alFreeId m) = none :=
  Nat.find_spec (alFree_exists m)

theorem alFreeId_min {β : Type} [DecidableEq β] (m : List (Nat × β)) (j : Nat)
    (h : j < alFreeId m) : alGet m j ≠ none :=
  Nat.find_min (alFree_exists m) h

theorem alFreeId_eq {β : Type} [DecidableEq β] (m : List (Nat × β)) (k : Nat)
    (h1 : alGet m k = none) (h2 : ∀ j, j < k → alGet m j ≠ none) :
    alFreeId m = k := by
  have hle : alFreeId m ≤ k := Nat.find_min' (alFree_exists m) h1
  rcases Nat.lt_or_ge (alFreeId m) k with h | h
  · exact absurd (alFreeId_spec m) (h2 _ h)
  · omega

theorem alFreeId_le_length {β : Type} [DecidableEq β] (m : List (Nat × β)) :
    alFreeId m ≤ m.length := by
  by_contra hgt
  push_neg at hgt
  have hsub : List.range (m.length + 1) ⊆ m.map Prod.fst := by
    intro x hx
    have hlt : x < alFreeId m := by
      have := List.mem_range.1 hx
      omega
    exact mem_keys_of_alGet m x (alFreeId_min m x hlt)
  have hsp := List.subperm_of_subset (List.nodup_range _) hsub
  have hlen := hsp.length_le
  rw [List.length_range, List.length_map] at hlen
  omega

theorem nodupKeys_of_alSorted {β : Type} (m : List (Nat × β))
    (h : alSorted m) : nodupKeys m :=
  List.Pairwise.map Prod.fst (fun _ _ hab => Nat.ne_of_lt hab) h

theorem uget_uinsert_self (m : List ((Nat × Nat) × Int)) (k : Nat × Nat) (v : Int) :
    uget (uinsert m k v) k = some v := by
  induction m with
  | nil => simp [uinsert, uget]
  | cons e t ih =>
    simp only [uinsert]
    by_cases he : e.1 = k
    · rw [if_pos he]
      simp [uget]
    · rw [if_neg he]
      simp only [uget]
      rw [if_neg he, ih]

/-! ### Drop-replay lemmas -/

theorem dropAux_ok (arrays : List (Nat × Nat)) (l : List ((Nat × Nat) × Int))
    (hids : ∀ e ∈ l, alGet arrays e.1.1 ≠ none)
    (hv : ∀ e ∈ l, e.2 = 0 ∨ e.2 = 1) :
    dropAux arrays l =
      (l.filterMap (fun e =>
         if e.2 = 1 then some ((alGet arrays e.1.1).getD 0, e.1.2) else none),
       false) := by
  induction l with
  | nil => rfl
  | cons e t ih =>
    obtain ⟨⟨id, num⟩, op⟩ := e
    have hid := hids _ (List.mem_cons_self _ _)
    have hop : op = 0 ∨ op = 1 := hv _ (List.mem_cons_self _ _)
    have ihh := ih (fun e he => hids e (List.mem_cons_of_mem _ he))
      (fun e he => hv e (List.mem_cons_of_mem _ he))
    simp only [dropAux]
    cases harr : alGet arrays id with
    | none => exact absurd harr hid
    | some arr =>
      rcases hop with hop | hop <;> subst hop <;>
        simp [ihh, List.filterMap_cons, harr]

theorem dropAux_panic (arrays : List (Nat × Nat)) (l : List ((Nat × Nat) × Int))
    (hids : ∀ e ∈ l, alGet arrays e.1.1 ≠ none)
    (hv : ∃ e ∈ l, ¬(e.2 = 0 ∨ e.2 = 1)) :
    (dropAux arrays l).2 = true := by
  induction l with
  | nil =>
    rcases hv with ⟨e, he, _⟩
    cases he
  | cons e t ih =>
    obtain ⟨⟨id, num⟩, op⟩ := e
    simp only [dropAux]
    cases harr : alGet arrays id with
    | none => rfl
    | some arr =>
      rcases hv with ⟨e', he', hbad⟩
      rcases List.mem_cons.1 he' with he' | he'
      · replace hbad : ¬(op = 0 ∨ op = 1) := by
          rw [he'] at hbad
          exact hbad
        push_neg at hbad
        simp [hbad.1, hbad.2]
      · have hrest := ih (fun e he => hids e (List.mem_cons_of_mem _ he))
          ⟨e', he', hbad⟩
        by_cases h1 : op = 1
        · simp [h1, hrest]
        · by_cases h0 : op = 0
          · simp [h1, h0, hrest]
          · simp [h1, h0]

/-! ### Undo-accumulation lemmas -/

theorem wrap16_eq_self (x : Int) (hl : -32768 ≤ x) (hr : x ≤ 32767) :
    wrap16 x = x := by
  unfold wrap16
  omega

theorem applyUndos_slot (id num : Nat) (ops : List Int) :
    ∀ (p : SemProc) (v : Int), uget p.undos (id, num) = some v →
    (∀ k, k ≤ ops.length →
      -32768 ≤ v - (ops.take k).sum ∧ v - (ops.take k).sum ≤ 32767) →
    uget (applyUndos p id num ops).undos (id, num) = some (v - ops.sum) := by
  induction ops with
  | nil =>
    intro p v hv _
    simpa [applyUndos] using hv
  | cons o t ih =>
    intro p v hv hrange
    have h1 : -32768 ≤ v - o ∧ v - o ≤ 32767 := by
      have := hrange 1 (by simp)
      simpa using this
    have hslot : uget (SemProc.add_undo p id num o).undos (id, num) = some (v - o) := by
      have h2 := uget_uinsert_self p.undos (id, num)
        (wrap16 ((uget p.undos (id, num)).getD 0 - o))
      calc uget (SemProc.add_undo p id num o).undos (id, num)
          = some (wrap16 ((uget p.undos (id, num)).getD 0 - o)) := h2
        _ = some (v - o) := by
            rw [hv, Option.getD_some, wrap16_eq_self _ h1.1 h1.2]
    have hrange' : ∀ k, k ≤ t.length →
        -32768 ≤ (v - o) - (t.take k).sum ∧ (v - o) - (t.take k).sum ≤ 32767 := by
      intro k hk
      have := hrange (k + 1) (by simp; omega)
      simp only [List.take_succ_cons, List.sum_cons] at this
      constructor <;> omega
    have happ : applyUndos p id num (o :: t) =
        applyUndos (p.add_undo id num o) id num t := rfl
    rw [happ, ih (p.add_undo id num o) (v - o) hslot hrange']
    congr 1
    simp only [List.sum_cons]
    ring

/-! ### `getId` scan lemmas -/

theorem getIdAux_some (m : List (Nat × ShmIdentifier)) (a j : Nat)
    (h : getIdAux a m = some j) : ∃ e, (j, e) ∈ m ∧ e.addr = a := by
  induction m with
  | nil => cases h
  | cons hd t ih =>
    simp only [getIdAux] at h
    split_ifs at h with he
    · injection h with h
      subst h
      exact ⟨hd.2, List.mem_cons.2 (Or.inl rfl), he⟩
    · obtain ⟨e, hm, ha⟩ := ih h
      exact ⟨e, List.mem_cons_of_mem _ hm, ha⟩

theorem getIdAux_none (m : List (Nat × ShmIdentifier)) (a : Nat)
    (h : getIdAux a m = none) : ∀ j e, (j, e) ∈ m → e.addr ≠ a := by
  induction m with
  | nil =>
    intro j e hm
    cases hm
  | cons hd t ih =>
    simp only [getIdAux] at h
    split_ifs at h with he
    intro j e hm
    rcases List.mem_cons.1 hm with hm | hm
    · intro haddr
      apply he
      rw [← hm]
      exact haddr
    · exact ih h j e hm

theorem getIdAux_mem_some (m : List (Nat × ShmIdentifier)) (a k : Nat)
    (e : ShmIdentifier) (hm : (k, e) ∈ m) (ha : e.addr = a) :
    ∃ j, getIdAux a m = some j := by
  induction m with
  | nil => cases hm
  | cons hd t ih =>
    simp only [getIdAux]
    by_cases h : hd.2.addr = a
    · exact ⟨hd.1, by rw [if_pos h]⟩
    · rw [if_neg h]
      rcases List.mem_cons.1 hm with hm2 | hm2
      · exact absurd ha (by rw [← hm2] at h; exact h)
      · exact ih hm2

theorem getIdAux_smallest (m : List (Nat × ShmIdentifier)) (a : Nat)
    (hs : alSorted m) :
    ∀ k, getIdAux a m = some k →
      ∃ e, alGet m k = some e ∧ e.addr = a ∧
        ∀ j, j < k → ∀ e', alGet m j = some e' → e'.addr ≠ a := by
  induction m with
  | nil =>
    intro k h
    cases h
  | cons hd t ih =>
    have hs1 : ∀ b ∈ t, hd.1 < b.1 := (List.pairwise_cons.1 hs).1
    have hs2 : alSorted t := (List.pairwise_cons.1 hs).2
    intro k h
    simp only [getIdAux] at h
    split_ifs at h with he
    · injection h with h
      subst h
      refine ⟨hd.2, ?_, he, ?_⟩
      · simp [alGet]
      · intro j hj e' hget
        exfalso
        simp only [alGet] at hget
        rw [if_neg (by omega : ¬hd.1 = j)] at hget
        have hjmem : j ∈ t.map Prod.fst :=
          mem_keys_of_alGet t j (by simp [hget])
        obtain ⟨b, hb, hbj⟩ := List.mem_map.1 hjmem
        have := hs1 b hb
        omega
    · obtain ⟨e, hget, ha, hmin⟩ := ih hs2 k h
      have hkmem : k ∈ t.map Prod.fst :=
        mem_keys_of_alGet t k (by simp [hget])
      obtain ⟨b, hb, hbk⟩ := List.mem_map.1 hkmem
      have hlt : hd.1 < k := hbk ▸ hs1 b hb
      refine ⟨e, ?_, ha, ?_⟩
      · simp only [alGet]
        rw [if_neg (by omega : ¬hd.1 = k), hget]
      · intro j hj e' hget'
        simp only [alGet] at hget'
        by_cases hd1j : hd.1 = j
        · rw [if_pos hd1j] at hget'
          injection hget' with hget'
          rw [← hget']
          exact he
        · rw [if_neg hd1j] at hget'
          exact hmin j hj e' hget'

/-! ### Sequential-allocation lemmas -/

theorem numbered_get (hs : List Nat) : ∀ (n i : Nat) (hi : i < hs.length),
    alGet (numbered n hs) (n + i) = some hs[i] := by
  induction hs with
  | nil =>
    intro n i hi
    exact absurd hi (by simp)
  | cons h t ih =>
    intro n i hi
    cases i with
    | zero =>
      simp only [numbered, alGet]
      rw [if_pos (by omega)]
      rfl
    | succ j =>
      simp only [numbered, alGet]
      rw [if_neg (by omega)]
      have hj : j < t.length := by
        simp only [List.length_cons] at hi
        omega
      have := ih (n + 1) j hj
      rw [show n + (j + 1) = n + 1 + j by omega, this]
      rfl

theorem numbered_get_ge (hs : List Nat) : ∀ (n k : Nat), n + hs.length ≤ k →
    alGet (numbered n hs) k = none := by
  induction hs with
  | nil =>
    intro n k _
    rfl
  | cons h t ih =>
    intro n k hk
    simp only [List.length_cons] at hk
    simp only [numbered, alGet]
    rw [if_neg (by omega), ih (n + 1) k (by omega)]

theorem numbered_freeId (hs : List Nat) :
    alFreeId (numbered 0 hs) = hs.length := by
  apply alFreeId_eq
  · exact numbered_get_ge hs 0 hs.length (by omega)
  · intro j hj
    have := numbered_get hs 0 j hj
    rw [Nat.zero_add] at this
    simp [this]

theorem numbered_insert (v : Nat) (hs : List Nat) : ∀ n,
    alInsert (numbered n hs) (n + hs.length) v = numbered n (hs ++ [v]) := by
  induction hs with
  | nil =>
    intro n
    simp [numbered, alInsert]
  | cons h t ih =>
    intro n
    simp only [numbered, alInsert, List.length_cons, List.cons_append]
    rw [if_neg (by omega), if_neg (by omega)]
    rw [show n + (t.length + 1) = n + 1 + t.length by omega, ih (n + 1)]
    rfl

theorem idsFrom_shift (n : Nat) : ∀ s, idsFrom (s + 1) n = (idsFrom s n).map (· + 1) := by
  induction n with
  | zero =>
    intro s
    rfl
  | succ m ih =>
    intro s
    simp only [idsFrom, List.map_cons]
    rw [ih (s + 1)]

theorem idsFrom_zero (n : Nat) : idsFrom 0 n = List.range n := by
  induction n with
  | zero => rfl
  | succ m ih =>
    simp only [idsFrom]
    rw [idsFrom_shift m 0, ih, List.range_succ_eq_map]

theorem addAll_fst (p : SemProc) (h : Nat) (t : List Nat) :
    (p.addAll (h :: t)).1 = ((p.add h).2.addAll t).1 := rfl

theorem addAll_snd (p : SemProc) (h : Nat) (t : List Nat) :
    (p.addAll (h :: t)).2 = (p.add h).1 :: ((p.add h).2.addAll t).2 := rfl

theorem addAll_go (t : List Nat) : ∀ (done : List Nat) (u : List ((Nat × Nat) × Int)),
    (SemProc.addAll ⟨numbered 0 done, u⟩ t).1 = ⟨numbered 0 (done ++ t), u⟩ ∧
    (SemProc.addAll ⟨numbered 0 done, u⟩ t).2 = idsFrom done.length t.length := by
  induction t with
  | nil =>
    intro done u
    constructor
    · simp [SemProc.addAll]
    · rfl
  | cons h t ih =>
    intro done u
    have hfree : alFreeId (numbered 0 done) = done.length := numbered_freeId done
    have hins : alInsert (numbered 0 done) done.length h = numbered 0 (done ++ [h]) := by
      have := numbered_insert h done 0
      rwa [Nat.zero_add] at this
    have hfst : (SemProc.add ⟨numbered 0 done, u⟩ h).1 = done.length := hfree
    have hsnd : (SemProc.add ⟨numbered 0 done, u⟩ h).2 =
        ⟨numbered 0 (done ++ [h]), u⟩ := by
      have hrfl : (SemProc.add ⟨numbered 0 done, u⟩ h).2 =
          ⟨alInsert (numbered 0 done) (alFreeId (numbered 0 done)) h, u⟩ := rfl
      rw [hrfl, hfree, hins]
    obtain ⟨ih1, ih2⟩ := ih (done ++ [h]) u
    constructor
    · rw [addAll_fst, hsnd, ih1, List.append_assoc]
      rfl
    · rw [addAll_snd, hfst, hsnd, ih2]
      simp [idsFrom, List.length_append]

/-! ### Claim theorems -/

/-- C10: for every finite table state the free-id search
`(0..).find(|i| table.get(i).is_none())` terminates (grounded here by
`alFree_exists`) and its `unwrap` never fails: it returns an id bound to no
entry and no greater than the number of entries in the table, so `add` is a
total function. -/
theorem get_free_id_total :
    (∀ p : SemProc, p.get_free_id ≤ p.arrays.length ∧
      p.get p.get_free_id = none) ∧
    (∀ p : ShmProc, p.get_free_id ≤ p.shmIdentifiers.length ∧
      p.get p.get_free_id = none) :=
  ⟨fun p => ⟨alFreeId_le_length p.arrays, alFreeId_spec p.arrays⟩,
   fun p => ⟨alFreeId_le_length p.shmIdentifiers, alFreeId_spec p.shmIdentifiers⟩⟩

/-- C3: forking a `SemProc` (its `Clone` impl) yields a table whose `arrays`
mapping holds exactly the same shared handles under the same ids — so both
processes reference the same underlying semaphore arrays — and whose undo
table is empty. -/
theorem clone_shares_arrays_clears_undos (p : SemProc) :
    (p.clone).arrays = p.arrays ∧
    (∀ id, (p.clone).get id = p.get id) ∧
    (p.clone).undos = [] ∧
    (∀ k, uget (p.clone).undos k = none) :=
  ⟨rfl, fun _ => rfl, rfl, fun _ => rfl⟩

/-- C5: `sys_semget` returns `EINVAL` for `nsems < 0` or `nsems > 256` and
leaves the calling process's semaphore table unchanged; for `nsems` in
`[0, 256]` it registers the resolved array under the smallest free id and
returns that id. -/
theorem sys_semget_validates_nsems (goc : Nat → Nat → Nat → Nat) (p : SemProc)
    (key : Nat) (nsems : Int) (flags : Nat) :
    (nsems < 0 ∨ 256 < nsems →
      sys_semget goc p key nsems flags = (.error .EINVAL, p)) ∧
    (0 ≤ nsems → nsems ≤ 256 →
      sys_semget goc p key nsems flags =
        (.ok p.get_free_id, (p.add (goc key nsems.toNat flags)).2) ∧
      (sys_semget goc p key nsems flags).2.get p.get_free_id =
        some (goc key nsems.toNat flags)) := by
  constructor
  · intro h
    have hc : nsems < 0 ∨ nsems.toNat > SEMMSL := by
      unfold SEMMSL
      omega
    simp only [sys_semget, if_pos hc]
  · intro h1 h2
    have hc : ¬(nsems < 0 ∨ nsems.toNat > SEMMSL) := by
      unfold SEMMSL
      omega
    constructor
    · simp only [sys_semget, if_neg hc]
      rfl
    · simp only [sys_semget, if_neg hc]
      exact alGet_insert_self p.arrays p.get_free_id (goc key nsems.toNat flags)

/-- Witness for C5: `nsems = 300` is rejected with `EINVAL` and the table is
left unchanged. -/
theorem sys_semget_validates_nsems_witness :
    ((300 : Int) < 0 ∨ 256 < (300 : Int)) ∧
    sys_semget (fun _ _ _ => 7) SemProc.init 42 300 0 =
      (.error .EINVAL, SemProc.init) :=
  ⟨by decide,
   (sys_semget_validates_nsems (fun _ _ _ => 7) SemProc.init 42 300 0).1
     (by decide)⟩

/-- C8: popping id `k` removes only that entry — every other id keeps its
entry — and when every id below `k` is occupied, a subsequent `add` returns
`k` again (then `k` is the smallest free id). -/
theorem pop_frame_and_reuse (p : ShmProc) (k g : Nat)
    (hnd : nodupKeys p.shmIdentifiers) (hk : p.get k ≠ none) :
    (p.pop k).get k = none ∧
    (∀ j, j ≠ k → (p.pop k).get j = p.get j) ∧
    ((∀ j, j < k → p.get j ≠ none) → ((p.pop k).add g).1 = k) := by
  refine ⟨alGet_remove_self p.shmIdentifiers k hnd,
    fun j hj => alGet_remove_ne p.shmIdentifiers k j hj, ?_⟩
  intro hocc
  show alFreeId (alRemove p.shmIdentifiers k) = k
  apply alFreeId_eq
  · exact alGet_remove_self p.shmIdentifiers k hnd
  · intro j hj
    rw [alGet_remove_ne p.shmIdentifiers k j (by omega)]
    exact hocc j hj

/-- Witness for C8 on a two-entry table, popping and then reusing id `0`. -/
theorem pop_frame_and_reuse_witness :
    nodupKeys (ShmProc.mk [(0, ⟨0, 5⟩), (1, ⟨4096, 6⟩)]).shmIdentifiers ∧
    (ShmProc.mk [(0, ⟨0, 5⟩), (1, ⟨4096, 6⟩)]).get 0 ≠ none ∧
    ((ShmProc.mk [(0, ⟨0, 5⟩), (1, ⟨4096, 6⟩)]).pop 0).get 0 = none ∧
    (((ShmProc.mk [(0, ⟨0, 5⟩), (1, ⟨4096, 6⟩)]).pop 0).add 9).1 = 0 :=
  ⟨by decide, by decide,
   (pop_frame_and_reuse (ShmProc.mk [(0, ⟨0, 5⟩), (1, ⟨4096, 6⟩)]) 0 9
     (by decide) (by decide)).1,
   (pop_frame_and_reuse (ShmProc.mk [(0, ⟨0, 5⟩), (1, ⟨4096, 6⟩)]) 0 9
     (by decide) (by decide)).2.2
     (fun j hj => absurd hj (Nat.not_lt_zero j))⟩

/-- C1: on process termination (`Drop for SemProc`), with every recorded id
resolvable in `arrays`: when all recorded values are `0` or `1`, the replay
completes without panic and applies a `release` to semaphore `num` of the
array registered under `id` exactly for the entries with value `1`, entries
with value `0` producing no operation; when some recorded value is neither
`0` nor `1`, the loop reaches `unimplemented!` and panics — a loud failure,
not a silent corruption of semaphore state. -/
theorem drop_releases_iff_one (p : SemProc)
    (hids : ∀ e ∈ p.undos, alGet p.arrays e.1.1 ≠ none) :
    ((∀ e ∈ p.undos, e.2 = 0 ∨ e.2 = 1) →
      p.dropRun = (p.undos.filterMap (fun e =>
        if e.2 = 1 then some ((alGet p.arrays e.1.1).getD 0, e.1.2) else none),
        false)) ∧
    ((∃ e ∈ p.undos, ¬(e.2 = 0 ∨ e.2 = 1)) → p.dropRun.2 = true) :=
  ⟨fun hv => dropAux_ok p.arrays p.undos hids hv,
   fun hv => dropAux_panic p.arrays p.undos hids hv⟩

/-- Witness for C1: a table with undo values `1` and `0` releases exactly
once, on the array recorded under the id of the value-`1` entry. -/
theorem drop_releases_iff_one_witness :
    (∀ e ∈ (SemProc.mk [(0, 7)] [((0, 0), 1), ((0, 1), 0)]).undos,
      alGet (SemProc.mk [(0, 7)] [((0, 0), 1), ((0, 1), 0)]).arrays e.1.1 ≠ none) ∧
    (∀ e ∈ (SemProc.mk [(0, 7)] [((0, 0), 1), ((0, 1), 0)]).undos,
      e.2 = 0 ∨ e.2 = 1) ∧
    (SemProc.mk [(0, 7)] [((0, 0), 1), ((0, 1), 0)]).dropRun = ([(7, 0)], false) := by
  refine ⟨by decide, by decide, ?_⟩
  rw [(drop_releases_iff_one (SemProc.mk [(0, 7)] [((0, 0), 1), ((0, 1), 0)])
    (by decide)).1 (by decide)]
  rfl

/-- C2: starting from an empty undo slot for `(id, num)`, a nonempty sequence
of `SEM_UNDO`-flagged operations `op1, op2, ...` (each reaching `add_undo`
exactly as in `sys_semop`) leaves `-(op1 + op2 + ...)` recorded in that slot,
provided every intermediate negated partial sum stays in the `i16` range of
the stored `SemOp`; equivalently, a single `add_undo(id, num, op)` replaces
the stored value (defaulting to `0` when unset) by that value minus `op`. -/
theorem add_undo_negated_sum (p : SemProc) (id num : Nat) (ops : List Int)
    (h0 : uget p.undos (id, num) = none) (hne : ops ≠ [])
    (hrange : ∀ k, k ≤ ops.length →
      -32768 ≤ -((ops.take k).sum) ∧ -((ops.take k).sum) ≤ 32767) :
    uget (applyUndos p id num ops).undos (id, num) = some (-(ops.sum)) ∧
    (∀ (q : SemProc) (op : Int),
      -32768 ≤ (uget q.undos (id, num)).getD 0 - op →
      (uget q.undos (id, num)).getD 0 - op ≤ 32767 →
      uget (q.add_undo id num op).undos (id, num) =
        some ((uget q.undos (id, num)).getD 0 - op)) := by
  constructor
  · cases ops with
    | nil => exact absurd rfl hne
    | cons o t =>
      have h1 : -32768 ≤ -o ∧ -o ≤ 32767 := by
        have := hrange 1 (by simp)
        simpa using this
      have hslot : uget (SemProc.add_undo p id num o).undos (id, num) =
          some (-o) := by
        have h2 := uget_uinsert_self p.undos (id, num)
          (wrap16 ((uget p.undos (id, num)).getD 0 - o))
        calc uget (SemProc.add_undo p id num o).undos (id, num)
            = some (wrap16 ((uget p.undos (id, num)).getD 0 - o)) := h2
          _ = some (-o) := by
              rw [h0]
              simp only [Option.getD_none]
              rw [show (0 : Int) - o = -o by ring, wrap16_eq_self _ h1.1 h1.2]
      have hrange' : ∀ k, k ≤ t.length →
          -32768 ≤ -o - (t.take k).sum ∧ -o - (t.take k).sum ≤ 32767 := by
        intro k hk
        have := hrange (k + 1) (by simp; omega)
        simp only [List.take_succ_cons, List.sum_cons] at this
        constructor <;> omega
      have hrun := applyUndos_slot id num t (SemProc.add_undo p id num o)
        (-o) hslot hrange'
      have happ : applyUndos p id num (o :: t) =
          applyUndos (p.add_undo id num o) id num t := rfl
      rw [happ, hrun]
      congr 1
      simp only [List.sum_cons]
      ring
  · intro q op hl hr
    have h2 := uget_uinsert_self q.undos (id, num)
      (wrap16 ((uget q.undos (id, num)).getD 0 - op))
    calc uget (q.add_undo id num op).undos (id, num)
        = some (wrap16 ((uget q.undos (id, num)).getD 0 - op)) := h2
      _ = some ((uget q.undos (id, num)).getD 0 - op) := by
          rw [wrap16_eq_self _ hl hr]

/-- Witness for C2: two acquires and one release with `SEM_UNDO` record
`-(-1 + -1 + 1) = 1` in the undo slot. -/
theorem add_undo_negated_sum_witness :
    uget SemProc.init.undos (0, 0) = none ∧
    ([-1, -1, 1] : List Int) ≠ [] ∧
    (∀ k, k ≤ ([-1, -1, 1] : List Int).length →
      -32768 ≤ -((([-1, -1, 1] : List Int).take k).sum) ∧
      -((([-1, -1, 1] : List Int).take k).sum) ≤ 32767) ∧
    uget (applyUndos SemProc.init 0 0 [-1, -1, 1]).undos (0, 0) = some 1 := by
  refine ⟨rfl, by decide, by decide, ?_⟩
  have h := (add_undo_negated_sum SemProc.init 0 0 [-1, -1, 1] rfl (by decide)
    (by decide)).1
  rw [h]
  decide

/-- C4: `add` returns the smallest non-negative id not in use — the returned
id is free beforehand and every smaller id is occupied — and `n` `add` calls
starting from the empty table return ids `0, 1, ..., n-1` in order, after
which `get` on the i-th returned id yields the i-th inserted handle. -/
theorem add_returns_smallest_free_ids (p : SemProc) (a : Nat) (hs : List Nat) :
    ((p.add a).1 = p.get_free_id ∧ p.get p.get_free_id = none ∧
      (∀ j, j < p.get_free_id → p.get j ≠ none)) ∧
    (SemProc.addAll SemProc.init hs).2 = List.range hs.length ∧
    (∀ i, (hi : i < hs.length) →
      (SemProc.addAll SemProc.init hs).1.get i = some hs[i]) := by
  have hgo := addAll_go hs [] []
  refine ⟨⟨rfl, alFreeId_spec p.arrays, fun j hj => alFreeId_min p.arrays j hj⟩,
    ?_, ?_⟩
  · have h2 : (SemProc.addAll SemProc.init hs).2 = idsFrom 0 hs.length := hgo.2
    rw [h2, idsFrom_zero]
  · intro i hi
    have h1 : (SemProc.addAll SemProc.init hs).1 = ⟨numbered 0 hs, []⟩ := hgo.1
    rw [h1]
    show alGet (numbered 0 hs) i = some hs[i]
    have h2 := numbered_get hs 0 i hi
    rwa [Nat.zero_add] at h2

/-- Witness for C4: adding two handles to the empty table yields ids `[0, 1]`
and `get 1` returns the second handle. -/
theorem add_returns_smallest_free_ids_witness :
    ((1 : Nat) < ([10, 20] : List Nat).length) ∧
    (SemProc.addAll SemProc.init [10, 20]).2 = List.range 2 ∧
    (SemProc.addAll SemProc.init [10, 20]).1.get 1 = some 20 :=
  ⟨by decide,
   (add_returns_smallest_free_ids SemProc.init 0 [10, 20]).2.1,
   (add_returns_smallest_free_ids SemProc.init 0 [10, 20]).2.2 1 (by decide)⟩

/-- C6: for `sys_shmat` on a registered id — with the address-space manager
modelled from the spec interface `find_free_region(hint_addr, size) -> addr`
as returning an address at or after the hint — a `0` `addr` argument is
replaced by the non-zero placeholder `PAGE_SIZE` before the manager is
consulted, the resolved address is persisted into the table entry for `id`,
and the call returns exactly that resolved address, which is non-zero when
`addr = 0`; an unregistered id fails with `EINVAL`. -/
theorem sys_shmat_resolves_and_persists (ffa : Nat → Nat → Nat)
    (gsize : Nat → Nat) (p : ShmProc) (id addr : Nat) (e : ShmIdentifier)
    (hffa : ∀ a s, a ≤ ffa a s) :
    (p.get id = some e →
      sys_shmat ffa gsize p id addr =
        (.ok (ffa (if addr = 0 then PAGE_SIZE else addr) (gsize e.sharedGuard)),
         p.set id ⟨ffa (if addr = 0 then PAGE_SIZE else addr) (gsize e.sharedGuard),
           e.sharedGuard⟩) ∧
      (sys_shmat ffa gsize p id addr).2.get id =
        some ⟨ffa (if addr = 0 then PAGE_SIZE else addr) (gsize e.sharedGuard),
          e.sharedGuard⟩ ∧
      (addr = 0 →
        ffa (if addr = 0 then PAGE_SIZE else addr) (gsize e.sharedGuard) ≠ 0)) ∧
    (p.get id = none → sys_shmat ffa gsize p id addr = (.error .EINVAL, p)) := by
  constructor
  · intro hget
    have heq : sys_shmat ffa gsize p id addr =
        (.ok (ffa (if addr = 0 then PAGE_SIZE else addr) (gsize e.sharedGuard)),
         p.set id ⟨ffa (if addr = 0 then PAGE_SIZE else addr) (gsize e.sharedGuard),
           e.sharedGuard⟩) := by
      simp only [sys_shmat, hget]
    refine ⟨heq, ?_, ?_⟩
    · rw [heq]
      exact alGet_insert_self p.shmIdentifiers id _
    · intro h0
      have hle := hffa (if addr = 0 then PAGE_SIZE else addr) (gsize e.sharedGuard)
      rw [if_pos h0] at hle ⊢
      unfold PAGE_SIZE at hle ⊢
      omega
  · intro hget
    simp only [sys_shmat, hget]

/-- Witness for C6: attaching id `0` at address `0` resolves to the
placeholder-derived address `4096`, persists it, and returns it. -/
theorem sys_shmat_resolves_and_persists_witness :
    (ShmProc.mk [(0, ⟨0, 5⟩)]).get 0 = some ⟨0, 5⟩ ∧
    sys_shmat (fun a _ => a) (fun _ => 4096) (ShmProc.mk [(0, ⟨0, 5⟩)]) 0 0 =
      (.ok 4096, (ShmProc.mk [(0, ⟨0, 5⟩)]).set 0 ⟨4096, 5⟩) ∧
    ((4096 : Nat) ≠ 0) :=
  ⟨by decide,
   ((sys_shmat_resolves_and_persists (fun a _ => a) (fun _ => 4096)
     (ShmProc.mk [(0, ⟨0, 5⟩)]) 0 0 ⟨0, 5⟩ (fun a _ => Nat.le_refl a)).1
     (by decide)).1,
   ((sys_shmat_resolves_and_persists (fun a _ => a) (fun _ => 4096)
     (ShmProc.mk [(0, ⟨0, 5⟩)]) 0 0 ⟨0, 5⟩ (fun a _ => Nat.le_refl a)).1
     (by decide)).2.2 rfl⟩

/-- C7: when `addr` equals the recorded address of exactly one entry `k`,
`sys_shmdt` removes exactly that entry — `k` is gone, every other id keeps
its entry — and returns `0`; when no entry records `addr`, the table is
unchanged and the call still returns `0`, never an error. -/
theorem sys_shmdt_removes_unique_match (p : ShmProc) (a : Nat)
    (hnd : nodupKeys p.shmIdentifiers) :
    (∀ k e, p.get k = some e → e.addr = a →
      (∀ j e', p.get j = some e' → e'.addr = a → j = k) →
      sys_shmdt p a = (.ok 0, p.pop k) ∧
      (sys_shmdt p a).2.get k = none ∧
      (∀ j, j ≠ k → (sys_shmdt p a).2.get j = p.get j)) ∧
    ((∀ k e, p.get k = some e → e.addr ≠ a) → sys_shmdt p a = (.ok 0, p)) := by
  constructor
  · intro k e hk ha huniq
    have hgid : p.getId a = some k := by
      cases hg : p.getId a with
      | none =>
        exact absurd ha (getIdAux_none p.shmIdentifiers a hg k e
          (mem_of_alGet_some p.shmIdentifiers k e hk))
      | some j =>
        obtain ⟨e', hm, ha'⟩ := getIdAux_some p.shmIdentifiers a j hg
        have hj : p.get j = some e' := alGet_of_mem p.shmIdentifiers j e' hnd hm
        rw [huniq j e' hj ha']
    have hres : sys_shmdt p a = (.ok 0, p.pop k) := by
      simp only [sys_shmdt, hgid]
    refine ⟨hres, ?_, ?_⟩
    · rw [hres]
      exact alGet_remove_self p.shmIdentifiers k hnd
    · intro j hj
      rw [hres]
      exact alGet_remove_ne p.shmIdentifiers k j hj
  · intro hnone
    cases hg : p.getId a with
    | none => simp only [sys_shmdt, hg]
    | some j =>
      exfalso
      obtain ⟨e', hm, ha'⟩ := getIdAux_some p.shmIdentifiers a j hg
      exact hnone j e' (alGet_of_mem p.shmIdentifiers j e' hnd hm) ha'

/-- Witness for C7: detaching the unique entry recorded at address `4096`
pops exactly that entry and returns `0`. -/
theorem sys_shmdt_removes_unique_match_witness :
    nodupKeys (ShmProc.mk [(0, ⟨4096, 5⟩)]).shmIdentifiers ∧
    (ShmProc.mk [(0, ⟨4096, 5⟩)]).get 0 = some ⟨4096, 5⟩ ∧
    sys_shmdt (ShmProc.mk [(0, ⟨4096, 5⟩)]) 4096 =
      (.ok 0, (ShmProc.mk [(0, ⟨4096, 5⟩)]).pop 0) :=
  ⟨by decide, by decide,
   ((sys_shmdt_removes_unique_match (ShmProc.mk [(0, ⟨4096, 5⟩)]) 4096
     (by decide)).1 0 ⟨4096, 5⟩ (by decide) rfl
     (fun j e' hj _ => by
       by_cases h : (0 : Nat) = j
       · omega
       · simp [ShmProc.get, alGet, h] at hj)).1⟩

/-- C9: `getId(addr)` returns some smallest id whose entry records `addr`
(`BTreeMap` iteration visits keys in increasing order) and `none` when no
entry matches; `add` records address `0` in the new entry, so an entry
created by `shmget` and never attached is matched by `getId(0)`, and
`sys_shmdt` at address `0` pops such an entry whenever one exists. -/
theorem getId_returns_smallest_match (p : ShmProc)
    (hs : alSorted p.shmIdentifiers) :
    (∀ a k, p.getId a = some k →
      ∃ e, p.get k = some e ∧ e.addr = a ∧
        ∀ j, j < k → ∀ e', p.get j = some e' → e'.addr ≠ a) ∧
    (∀ a, p.getId a = none → ∀ k e, p.get k = some e → e.addr ≠ a) ∧
    (∀ g, ((p.add g).2).get (p.add g).1 = some ⟨0, g⟩) ∧
    ((∃ k e, p.get k = some e ∧ e.addr = 0) →
      ∃ j, p.getId 0 = some j ∧ sys_shmdt p 0 = (.ok 0, p.pop j)) := by
  refine ⟨?_, ?_, ?_, ?_⟩
  · intro a k h
    exact getIdAux_smallest p.shmIdentifiers a hs k h
  · intro a h k e hk
    exact getIdAux_none p.shmIdentifiers a h k e
      (mem_of_alGet_some p.shmIdentifiers k e hk)
  · intro g
    exact alGet_insert_self p.shmIdentifiers p.get_free_id ⟨0, g⟩
  · rintro ⟨k, e, hk, ha⟩
    obtain ⟨j, hj⟩ := getIdAux_mem_some p.shmIdentifiers 0 k e
      (mem_of_alGet_some p.shmIdentifiers k e hk) ha
    have hj2 : p.getId 0 = some j := hj
    refine ⟨j, hj2, ?_⟩
    simp only [sys_shmdt, hj2]

/-- Witness for C9: a table holding one never-attached entry (address `0`)
is matched by `getId 0`, and `sys_shmdt` at `0` pops it. -/
theorem getId_returns_smallest_match_witness :
    alSorted (ShmProc.mk [(0, ⟨0, 5⟩)]).shmIdentifiers ∧
    (∃ j, (ShmProc.mk [(0, ⟨0, 5⟩)]).getId 0 = some j ∧
      sys_shmdt (ShmProc.mk [(0, ⟨0, 5⟩)]) 0 =
        (.ok 0, (ShmProc.mk [(0, ⟨0, 5⟩)]).pop j)) :=
  ⟨by decide,
   (getId_returns_smallest_match (ShmProc.mk [(0, ⟨0, 5⟩)]) (by decide)).2.2.2
     ⟨0, ⟨0, 5⟩, by decide, rfl⟩⟩
